import Mathlib

/-!
Verification of the CRR binomial option pricing engine (src/app.js).

The source is JavaScript operating on IEEE doubles; the embedding models the
numeric computations over `ℚ`, with the two transcendental primitives the code
uses (`Math.exp`, `Math.sqrt`) abstracted as an environment `NumEnv` of
arbitrary rational functions.  Every definition mirrors the corresponding
source function; errors thrown by the source are modelled with `Except` over
the error taxonomy of the spec (`InvalidParameter`, `DegenerateTree`,
`ArbitrageViolation`, `InvalidTarget`, `NotBracketed`), with the thrown
message kept for `InvalidParameter` since the validator's reporting order is
part of the spec.
-/

namespace BinomialApp

/-- Abstract numeric environment standing for `Math.exp` and `Math.sqrt`. -/
structure NumEnv where
  exp : ℚ → ℚ
  sqrt : ℚ → ℚ

/-- The five error kinds of the spec's taxonomy (§7).  `invalidParameter`
carries the thrown message, `arbitrageViolation` carries the out-of-bounds
probability (the source interpolates it into the message and does not clamp). -/
inductive PricingError where
  | invalidParameter (msg : String)
  | degenerateTree
  | arbitrageViolation (p : ℚ)
  | invalidTarget
  | notBracketed
deriving DecidableEq

/-- The pricing-parameter record (source: the object literal built by
`readInputs` and destructured by `validateInputs`).  `n` is kept rational so
that the validator's integrality check `Number.isInteger(n)` is modelled
faithfully (`n.den = 1`). -/
structure Params where
  S : ℚ
  K : ℚ
  T : ℚ
  r : ℚ
  sigma : ℚ
  q : ℚ
  n : ℚ
  option_type : String
  exercise_type : String

/-- Source: `validateInputs` (src/app.js:20-28), checks in source order. -/
def validateInputs (p : Params) : Except PricingError Unit :=
  if ¬(p.S > 0 ∧ p.K > 0) then .error (.invalidParameter "S and K must be positive.")
  else if ¬(p.T > 0) then .error (.invalidParameter "T must be positive.")
  else if ¬(p.n > 0 ∧ p.n.den = 1) then .error (.invalidParameter "n must be a positive integer.")
  else if p.sigma < 0 then .error (.invalidParameter "sigma must be non-negative.")
  else if p.q < 0 then .error (.invalidParameter "q must be non-negative.")
  else if ¬(p.option_type = "call" ∨ p.option_type = "put") then .error (.invalidParameter "Option type invalid.")
  else if ¬(p.exercise_type = "european" ∨ p.exercise_type = "american") then .error (.invalidParameter "Exercise type invalid.")
  else .ok ()

/-- The up factor `u = sigma > 0 ? Math.exp(sigma * Math.sqrt(dt)) : 1`
(src/app.js:42). -/
def upFactor (E : NumEnv) (sigma dt : ℚ) : ℚ :=
  if sigma > 0 then E.exp (sigma * E.sqrt dt) else 1

/-- The risk-neutral probability formula `(Math.exp((r - q) * dt) - d) / (u - d)`
(src/app.js:31). -/
def rnProbFormula (E : NumEnv) (u d r q dt : ℚ) : ℚ :=
  (E.exp ((r - q) * dt) - d) / (u - d)

/-- Source: `riskNeutralProb` (src/app.js:30-36). -/
def riskNeutralProb (E : NumEnv) (u d r q dt : ℚ) : Except PricingError ℚ :=
  let p := rnProbFormula E u d r q dt
  if p < 0 ∨ p > 1 then .error (.arbitrageViolation p) else .ok p

/-- The payoff selection `optionType === "call" ? max(0, price - K) : max(0, K - price)`
used at src/app.js:49 and src/app.js:57. -/
def payoff (optionType : String) (K price : ℚ) : ℚ :=
  if optionType = "call" then max 0 (price - K) else max 0 (K - price)

/-- One backward-induction layer (the inner `for j` loop, src/app.js:53-62).
The source overwrites `optionValues[j]` in place while `j` ascends; since the
iteration at `j` reads only indices `j` and `j + 1`, and index `j + 1` has not
yet been overwritten, the in-place update is equivalent to this map over the
previous layer. -/
def stepLayer (S K u d discount p : ℚ) (optionType exerciseType : String)
    (i : ℕ) (vals : List ℚ) : List ℚ :=
  (List.range (i + 1)).map (fun j =>
    let hold := discount * (p * vals.getD (j + 1) 0 + (1 - p) * vals.getD j 0)
    if exerciseType = "american" then
      max hold (payoff optionType K (S * u ^ j * d ^ (i - j)))
    else hold)

/-- The outer backward-induction loop `for i = n - 1 downto 0` (src/app.js:52):
`inductLayers ... i₀ vals` applies `stepLayer` at indices `i₀ - 1, ..., 1, 0`. -/
def inductLayers (S K u d discount p : ℚ) (optionType exerciseType : String) :
    ℕ → List ℚ → List ℚ
  | 0, vals => vals
  | i + 1, vals =>
    inductLayers S K u d discount p optionType exerciseType i
      (stepLayer S K u d discount p optionType exerciseType i vals)

/-- Source: `binomialOptionPricing` (src/app.js:38-65).  After validation `n`
is a positive integer, extracted as `n.num.toNat` for the loop bounds. -/
def binomialOptionPricing (E : NumEnv) (S K T r sigma : ℚ) (n : ℚ)
    (optionType exerciseType : String) (q : ℚ) : Except PricingError ℚ :=
  match validateInputs ⟨S, K, T, r, sigma, q, n, optionType, exerciseType⟩ with
  | .error e => .error e
  | .ok _ =>
    let dt := T / n
    let discount := E.exp (-(r * dt))
    let u := upFactor E sigma dt
    let d := 1 / u
    if u = d then .error .degenerateTree
    else
      match riskNeutralProb E u d r q dt with
      | .error e => .error e
      | .ok p =>
        let nn := n.num.toNat
        let optionValues :=
          (List.range (nn + 1)).map (fun j => payoff optionType K (S * u ^ j * d ^ (nn - j)))
        .ok ((inductLayers S K u d discount p optionType exerciseType nn optionValues).getD 0 0)

/-! ### Spec-side CRR value (for the refinement claim C1)

The following definitions are written from the spec's words (§4.2 / claim C1),
not from the source: terminal payoffs over functions `ℕ → ℚ` indexed by the
up-move count, and backward induction for `i` from `n - 1` down to `0`
combining `value[j]` and `value[j + 1]`. -/

/-- Spec: terminal layer, `payoff = max(0, S·u^j·d^(n−j) − K)` for a call and
`max(0, K − S·u^j·d^(n−j))` for a put. -/
def crrTerminal (S K u d : ℚ) (optionType : String) (n : ℕ) : ℕ → ℚ :=
  fun j =>
    if optionType = "call" then max 0 (S * u ^ j * d ^ (n - j) - K)
    else max 0 (K - S * u ^ j * d ^ (n - j))

/-- Spec: one layer of backward induction at step `i`: continuation
`discount·(p·value[j+1] + (1−p)·value[j])`; for american style the max of the
continuation with the intrinsic value at node price `S·u^j·d^(i−j)`, for
european the continuation unconditionally. -/
def crrStep (S K u d discount p : ℚ) (optionType exerciseType : String)
    (i : ℕ) (v : ℕ → ℚ) : ℕ → ℚ :=
  fun j =>
    let continuation := discount * (p * v (j + 1) + (1 - p) * v j)
    if exerciseType = "american" then
      let intrinsic :=
        if optionType = "call" then max 0 (S * u ^ j * d ^ (i - j) - K)
        else max 0 (K - S * u ^ j * d ^ (i - j))
      max continuation intrinsic
    else continuation

/-- Spec: backward induction for `i` from `n − 1` down to `0`. -/
def crrBackward (S K u d discount p : ℚ) (optionType exerciseType : String) :
    ℕ → (ℕ → ℚ) → (ℕ → ℚ)
  | 0, v => v
  | i + 1, v =>
    crrBackward S K u d discount p optionType exerciseType i
      (crrStep S K u d discount p optionType exerciseType i v)

/-- Spec-side CRR value (claim C1): `dt = T/n`, `discount = exp(−r·dt)`,
`u = exp(sigma·√dt)` if `sigma > 0` else `1`, `d = 1/u`,
`p = (exp((r−q)·dt) − d)/(u − d)`, terminal payoffs, backward induction,
result `value[0]`. -/
def crrValue (E : NumEnv) (S K T r sigma : ℚ) (n : ℕ)
    (optionType exerciseType : String) (q : ℚ) : ℚ :=
  let dt := T / (n : ℚ)
  let discount := E.exp (-(r * dt))
  let u := if sigma > 0 then E.exp (sigma * E.sqrt dt) else 1
  let d := 1 / u
  let p := (E.exp ((r - q) * dt) - d) / (u - d)
  crrBackward S K u d discount p optionType exerciseType n
    (crrTerminal S K u d optionType n) 0

/-! ### Helper lemmas -/

lemma range_map_getD (g : ℕ → ℚ) (i j : ℕ) (h : j < i) :
    ((List.range i).map g).getD j 0 = g j := by
  simp [List.getD_eq_getElem?_getD, List.getElem?_map, List.getElem?_range h]

lemma coe_num_toNat (x : ℚ) (hpos : 0 < x) (hden : x.den = 1) :
    ((x.num.toNat : ℚ)) = x := by
  have h1 : (0:ℤ) < x.num := Rat.num_pos.mpr hpos
  have h2 : (x.num.toNat : ℤ) = x.num := Int.toNat_of_nonneg (le_of_lt h1)
  have h3 : ((x.num : ℚ)) = x := (Rat.den_eq_one_iff x).mp hden
  rw [← h3]
  exact_mod_cast h2

lemma validateInputs_ok_iff (p : Params) :
    validateInputs p = .ok () ↔
      (0 < p.S ∧ 0 < p.K ∧ 0 < p.T ∧ 0 < p.n ∧ p.n.den = 1 ∧ 0 ≤ p.sigma ∧ 0 ≤ p.q ∧
        (p.option_type = "call" ∨ p.option_type = "put") ∧
        (p.exercise_type = "european" ∨ p.exercise_type = "american")) := by
  unfold validateInputs
  split_ifs with h1 h2 h3 h4 h5 h6 h7 <;>
    first
    | exact iff_of_true rfl ⟨h1.1, h1.2, h2, h3.1, h3.2, not_lt.mp h4, not_lt.mp h5, h6, h7⟩
    | · refine iff_of_false (by simp) ?_
        rintro ⟨hS, hK, hT, hn, hden, hsig, hq, hot, het⟩
        first
        | exact h1 ⟨hS, hK⟩
        | exact h2 hT
        | exact h3 ⟨hn, hden⟩
        | exact absurd h4 (not_lt.mpr hsig)
        | exact absurd h5 (not_lt.mpr hq)
        | exact h6 hot
        | exact h7 het

lemma stepLayer_getD (S K u d disc p : ℚ) (ot et : String) (i : ℕ)
    (vals : List ℚ) (f : ℕ → ℚ)
    (hv : ∀ j, j ≤ i + 1 → vals.getD j 0 = f j) :
    ∀ j, j ≤ i →
      (stepLayer S K u d disc p ot et i vals).getD j 0 =
        crrStep S K u d disc p ot et i f j := by
  intro j hj
  rw [stepLayer, range_map_getD _ _ _ (by omega)]
  simp only [hv j (by omega), hv (j + 1) (by omega)]
  rfl

lemma inductLayers_getD (S K u d disc p : ℚ) (ot et : String) :
    ∀ (i : ℕ) (vals : List ℚ) (f : ℕ → ℚ),
      (∀ j, j ≤ i → vals.getD j 0 = f j) →
      (inductLayers S K u d disc p ot et i vals).getD 0 0 =
        crrBackward S K u d disc p ot et i f 0 := by
  intro i
  induction i with
  | zero =>
    intro vals f hv
    simpa [inductLayers, crrBackward] using hv 0 (le_refl 0)
  | succ i ih =>
    intro vals f hv
    rw [inductLayers, crrBackward]
    exact ih _ _ (stepLayer_getD S K u d disc p ot et i vals f hv)

/-- Reduction of `binomialOptionPricing` once validation passed: the body with
the `let`s spelled out. -/
lemma binomialOptionPricing_ok_unfold (E : NumEnv) (S K T r sigma n : ℚ)
    (ot et : String) (q : ℚ)
    (hval : validateInputs ⟨S, K, T, r, sigma, q, n, ot, et⟩ = .ok ()) :
    binomialOptionPricing E S K T r sigma n ot et q =
      (if upFactor E sigma (T / n) = 1 / upFactor E sigma (T / n) then
        .error .degenerateTree
      else
        match riskNeutralProb E (upFactor E sigma (T / n)) (1 / upFactor E sigma (T / n)) r q (T / n) with
        | .error e => .error e
        | .ok p =>
          .ok ((inductLayers S K (upFactor E sigma (T / n)) (1 / upFactor E sigma (T / n))
              (E.exp (-(r * (T / n)))) p ot et n.num.toNat
              ((List.range (n.num.toNat + 1)).map
                (fun j => payoff ot K (S * (upFactor E sigma (T / n)) ^ j *
                  (1 / upFactor E sigma (T / n)) ^ (n.num.toNat - j))))).getD 0 0)) := by
  unfold binomialOptionPricing
  rw [hval]

/-- Spec-side first violated rule (claim C2), in the spec's fixed order:
S/K positivity, T positivity, n positivity/integrality, sigma non-negativity,
q non-negativity, option-kind membership, exercise-style membership. -/
def firstViolation (p : Params) : Option String :=
  if p.S ≤ 0 ∨ p.K ≤ 0 then some "S and K must be positive."
  else if p.T ≤ 0 then some "T must be positive."
  else if p.n ≤ 0 ∨ ¬p.n.den = 1 then some "n must be a positive integer."
  else if p.sigma < 0 then some "sigma must be non-negative."
  else if p.q < 0 then some "q must be non-negative."
  else if ¬(p.option_type = "call" ∨ p.option_type = "put") then some "Option type invalid."
  else if ¬(p.exercise_type = "european" ∨ p.exercise_type = "american") then some "Exercise type invalid."
  else none

lemma validateInputs_cases (p : Params) :
    validateInputs p = .ok () ∨ ∃ msg, validateInputs p = .error (.invalidParameter msg) := by
  unfold validateInputs
  split_ifs <;> simp

/-- Claim C1: for every parameter set accepted by the validator for which
`u ≠ d` and the risk-neutral probability `p` lies in `[0, 1]`,
`binomialOptionPricing` returns exactly the CRR value defined by the spec's
terminal-payoff layer and backward induction (`crrValue`). -/
theorem binomialOptionPricing_matches_crr (E : NumEnv) (S K T r sigma n : ℚ)
    (optionType exerciseType : String) (q : ℚ)
    (hval : validateInputs ⟨S, K, T, r, sigma, q, n, optionType, exerciseType⟩ = .ok ())
    (hud : upFactor E sigma (T / n) ≠ 1 / upFactor E sigma (T / n))
    (hp0 : 0 ≤ rnProbFormula E (upFactor E sigma (T / n)) (1 / upFactor E sigma (T / n)) r q (T / n))
    (hp1 : rnProbFormula E (upFactor E sigma (T / n)) (1 / upFactor E sigma (T / n)) r q (T / n) ≤ 1) :
    binomialOptionPricing E S K T r sigma n optionType exerciseType q =
      .ok (crrValue E S K T r sigma n.num.toNat optionType exerciseType q) := by
  obtain ⟨hS, hK, hT, hn, hden, -, -, -, -⟩ := (validateInputs_ok_iff _).mp hval
  have hcast : ((n.num.toNat : ℚ)) = n := coe_num_toNat n hn hden
  rw [binomialOptionPricing_ok_unfold E S K T r sigma n optionType exerciseType q hval,
    if_neg hud]
  unfold riskNeutralProb
  rw [if_neg (not_or.mpr ⟨not_lt.mpr hp0, not_lt.mpr hp1⟩)]
  dsimp only
  simp only [Except.ok.injEq]
  simp only [crrValue]
  rw [hcast]
  simp only [upFactor, rnProbFormula, payoff]
  apply inductLayers_getD
  intro j hj
  rw [range_map_getD _ _ _ (by omega)]
  simp only [crrTerminal]

/-- Claim C2: the validator raises `InvalidParameter` iff one of the spec's
conditions holds, the violation reported is the first one in the spec's fixed
order, and when no condition holds it returns without error. -/
theorem validateInputs_first_violation (p : Params) :
    validateInputs p =
      (match firstViolation p with
        | some msg => .error (.invalidParameter msg)
        | none => .ok ()) ∧
    ((∃ msg, validateInputs p = .error (.invalidParameter msg)) ↔
      (p.S ≤ 0 ∨ p.K ≤ 0 ∨ p.T ≤ 0 ∨ p.n ≤ 0 ∨ ¬p.n.den = 1 ∨ p.sigma < 0 ∨ p.q < 0 ∨
        ¬(p.option_type = "call" ∨ p.option_type = "put") ∨
        ¬(p.exercise_type = "european" ∨ p.exercise_type = "american"))) := by
  constructor
  · unfold validateInputs firstViolation
    by_cases c1 : p.S > 0 ∧ p.K > 0
    · rw [if_neg (not_not.mpr c1),
        if_neg (show ¬(p.S ≤ 0 ∨ p.K ≤ 0) by push_neg; exact c1)]
      by_cases c2 : p.T > 0
      · rw [if_neg (not_not.mpr c2), if_neg (not_le.mpr c2)]
        by_cases c3 : p.n > 0 ∧ p.n.den = 1
        · rw [if_neg (not_not.mpr c3),
            if_neg (show ¬(p.n ≤ 0 ∨ ¬p.n.den = 1) by push_neg; exact ⟨c3.1, c3.2⟩)]
          by_cases c4 : p.sigma < 0
          · rw [if_pos c4, if_pos c4]
          · rw [if_neg c4, if_neg c4]
            by_cases c5 : p.q < 0
            · rw [if_pos c5, if_pos c5]
            · rw [if_neg c5, if_neg c5]
              by_cases c6 : p.option_type = "call" ∨ p.option_type = "put"
              · rw [if_neg (not_not.mpr c6), if_neg (not_not.mpr c6)]
                by_cases c7 : p.exercise_type = "european" ∨ p.exercise_type = "american"
                · rw [if_neg (not_not.mpr c7), if_neg (not_not.mpr c7)]
                · rw [if_pos c7, if_pos c7]
              · rw [if_pos c6, if_pos c6]
        · rw [if_pos c3, if_pos (show p.n ≤ 0 ∨ ¬p.n.den = 1 from
            (not_and_or.mp c3).imp not_lt.mp id)]
      · rw [if_pos c2, if_pos (not_lt.mp c2)]
    · rw [if_pos c1, if_pos ((not_and_or.mp c1).imp not_lt.mp not_lt.mp)]
  · have hiff := (validateInputs_ok_iff p).not
    constructor
    · rintro ⟨msg, hmsg⟩
      have hne : ¬validateInputs p = .ok () := by
        rw [hmsg]
        simp
      have := hiff.mp hne
      simp only [not_and_or, not_lt, not_le] at this
      tauto
    · intro hdisj
      rcases validateInputs_cases p with hok | hex
      · exfalso
        apply hiff.mpr ?_ hok
        simp only [not_and_or, not_lt, not_le]
        tauto
      · exact hex

/-- Witness for C2 at a concrete record with no violated rule: the validator
returns without error. -/
theorem validateInputs_first_violation_witness :
    validateInputs ⟨1, 1, 1, 0, 1, 0, 1, "call", "european"⟩ = .ok () := by
  have h := (validateInputs_first_violation ⟨1, 1, 1, 0, 1, 0, 1, "call", "european"⟩).1
  rw [h]
  norm_num [firstViolation]

/-- A concrete numeric environment (constant `exp = 2`, `sqrt = 1`) used for
the concrete evaluations below. -/
def constEnv : NumEnv := ⟨fun _ => 2, fun _ => 1⟩

/-- Witness for C1 at a concrete input: `S=K=T=1`, `r=q=0`, `sigma=1`, `n=1`,
european call under `constEnv`. -/
theorem binomialOptionPricing_matches_crr_witness :
    binomialOptionPricing constEnv 1 1 1 0 1 1 "call" "european" 0 =
      .ok (crrValue constEnv 1 1 1 0 1 (1:ℚ).num.toNat "call" "european" 0) :=
  binomialOptionPricing_matches_crr constEnv 1 1 1 0 1 1 "call" "european" 0
    (by norm_num [validateInputs])
    (by norm_num [upFactor, constEnv])
    (by norm_num [upFactor, rnProbFormula, constEnv])
    (by norm_num [upFactor, rnProbFormula, constEnv])

/-- Claim C3: after validation, the pricer fails with `degenerateTree` exactly
when the computed up factor equals the down factor (in particular whenever
`sigma = 0`), fails with `arbitrageViolation` carrying the unclamped
out-of-bounds probability exactly when `p ∉ [0, 1]`, and otherwise raises no
error and returns a value. -/
theorem binomialOptionPricing_error_taxonomy (E : NumEnv) (S K T r sigma n : ℚ)
    (ot et : String) (q : ℚ)
    (hval : validateInputs ⟨S, K, T, r, sigma, q, n, ot, et⟩ = .ok ()) :
    (sigma = 0 → binomialOptionPricing E S K T r sigma n ot et q = .error .degenerateTree) ∧
    (upFactor E sigma (T / n) = 1 / upFactor E sigma (T / n) →
      binomialOptionPricing E S K T r sigma n ot et q = .error .degenerateTree) ∧
    (upFactor E sigma (T / n) ≠ 1 / upFactor E sigma (T / n) →
      ((rnProbFormula E (upFactor E sigma (T / n)) (1 / upFactor E sigma (T / n)) r q (T / n) < 0 ∨
          rnProbFormula E (upFactor E sigma (T / n)) (1 / upFactor E sigma (T / n)) r q (T / n) > 1) →
        binomialOptionPricing E S K T r sigma n ot et q =
          .error (.arbitrageViolation
            (rnProbFormula E (upFactor E sigma (T / n)) (1 / upFactor E sigma (T / n)) r q (T / n)))) ∧
      (0 ≤ rnProbFormula E (upFactor E sigma (T / n)) (1 / upFactor E sigma (T / n)) r q (T / n) →
        rnProbFormula E (upFactor E sigma (T / n)) (1 / upFactor E sigma (T / n)) r q (T / n) ≤ 1 →
        ∃ v, binomialOptionPricing E S K T r sigma n ot et q = .ok v)) := by
  have hdeg : upFactor E sigma (T / n) = 1 / upFactor E sigma (T / n) →
      binomialOptionPricing E S K T r sigma n ot et q = .error .degenerateTree := by
    intro h
    rw [binomialOptionPricing_ok_unfold E S K T r sigma n ot et q hval, if_pos h]
  refine ⟨?_, hdeg, ?_⟩
  · intro hσ
    apply hdeg
    have : upFactor E sigma (T / n) = 1 := by
      unfold upFactor
      rw [if_neg (by rw [hσ]; exact lt_irrefl 0)]
    rw [this]
    norm_num
  · intro hud
    constructor
    · intro hout
      rw [binomialOptionPricing_ok_unfold E S K T r sigma n ot et q hval, if_neg hud]
      unfold riskNeutralProb
      rw [if_pos hout]
    · intro hp0 hp1
      rw [binomialOptionPricing_ok_unfold E S K T r sigma n ot et q hval, if_neg hud]
      unfold riskNeutralProb
      rw [if_neg (not_or.mpr ⟨not_lt.mpr hp0, not_lt.mpr hp1⟩)]
      exact ⟨_, rfl⟩

/-- Witness for C3 at a concrete input: `sigma = 0` with otherwise valid
parameters yields `degenerateTree`. -/
theorem binomialOptionPricing_error_taxonomy_witness :
    binomialOptionPricing constEnv 1 1 1 0 0 1 "call" "european" 0 = .error .degenerateTree :=
  (binomialOptionPricing_error_taxonomy constEnv 1 1 1 0 0 1 "call" "european" 0
    (by norm_num [validateInputs])).1 rfl

/-- Inversion: a successful pricing run passed validation, had `u ≠ d` and
`p ∈ [0, 1]`, and returned the backward-induction value. -/
lemma binomialOptionPricing_ok_inv (E : NumEnv) (S K T r sigma n : ℚ)
    (ot et : String) (q v : ℚ)
    (h : binomialOptionPricing E S K T r sigma n ot et q = .ok v) :
    validateInputs ⟨S, K, T, r, sigma, q, n, ot, et⟩ = .ok () ∧
    upFactor E sigma (T / n) ≠ 1 / upFactor E sigma (T / n) ∧
    0 ≤ rnProbFormula E (upFactor E sigma (T / n)) (1 / upFactor E sigma (T / n)) r q (T / n) ∧
    rnProbFormula E (upFactor E sigma (T / n)) (1 / upFactor E sigma (T / n)) r q (T / n) ≤ 1 ∧
    v = (inductLayers S K (upFactor E sigma (T / n)) (1 / upFactor E sigma (T / n))
        (E.exp (-(r * (T / n))))
        (rnProbFormula E (upFactor E sigma (T / n)) (1 / upFactor E sigma (T / n)) r q (T / n))
        ot et n.num.toNat
        ((List.range (n.num.toNat + 1)).map
          (fun j => payoff ot K (S * (upFactor E sigma (T / n)) ^ j *
            (1 / upFactor E sigma (T / n)) ^ (n.num.toNat - j))))).getD 0 0 := by
  rcases hv : validateInputs ⟨S, K, T, r, sigma, q, n, ot, et⟩ with e | u
  · unfold binomialOptionPricing at h
    rw [hv] at h
    dsimp only at h
    simp at h
  · cases u
    rw [binomialOptionPricing_ok_unfold E S K T r sigma n ot et q hv] at h
    by_cases hud : upFactor E sigma (T / n) = 1 / upFactor E sigma (T / n)
    · rw [if_pos hud] at h
      simp at h
    · rw [if_neg hud] at h
      unfold riskNeutralProb at h
      by_cases hp : rnProbFormula E (upFactor E sigma (T / n)) (1 / upFactor E sigma (T / n)) r q (T / n) < 0 ∨
          rnProbFormula E (upFactor E sigma (T / n)) (1 / upFactor E sigma (T / n)) r q (T / n) > 1
      · rw [if_pos hp] at h
        dsimp only at h
        simp at h
      · rw [if_neg hp] at h
        dsimp only at h
        push_neg at hp
        simp only [Except.ok.injEq] at h
        exact ⟨rfl, hud, hp.1, hp.2, h.symm⟩

lemma stepLayer_length (S K u d disc p : ℚ) (ot et : String) (i : ℕ) (vals : List ℚ) :
    (stepLayer S K u d disc p ot et i vals).length = i + 1 := by
  simp [stepLayer]

lemma stepLayer_getD_oob (S K u d disc p : ℚ) (ot et : String) (i : ℕ)
    (vals : List ℚ) (j : ℕ) (hj : i + 1 ≤ j) :
    (stepLayer S K u d disc p ot et i vals).getD j 0 = 0 := by
  rw [List.getD_eq_getElem?_getD, List.getElem?_eq_none]
  · rfl
  · rw [stepLayer_length]
    exact hj

lemma stepLayer_euro_le_amer (S K u d disc p : ℚ) (ot : String)
    (hdisc : 0 ≤ disc) (hp0 : 0 ≤ p) (hp1 : p ≤ 1) (i : ℕ)
    (ve va : List ℚ) (hle : ∀ j, ve.getD j 0 ≤ va.getD j 0) :
    ∀ j, (stepLayer S K u d disc p ot "european" i ve).getD j 0 ≤
      (stepLayer S K u d disc p ot "american" i va).getD j 0 := by
  intro j
  by_cases hj : j < i + 1
  · rw [stepLayer, range_map_getD _ _ _ hj, stepLayer, range_map_getD _ _ _ hj]
    dsimp only
    rw [if_neg (by decide : ¬("european" = "american")), if_pos rfl]
    refine le_trans ?_ (le_max_left _ _)
    have h1 := hle j
    have h2 := hle (j + 1)
    have hstep : p * ve.getD (j + 1) 0 + (1 - p) * ve.getD j 0 ≤
        p * va.getD (j + 1) 0 + (1 - p) * va.getD j 0 :=
      add_le_add (mul_le_mul_of_nonneg_left h2 hp0)
        (mul_le_mul_of_nonneg_left h1 (by linarith))
    exact mul_le_mul_of_nonneg_left hstep hdisc
  · rw [stepLayer_getD_oob S K u d disc p ot "european" i ve j (by omega),
      stepLayer_getD_oob S K u d disc p ot "american" i va j (by omega)]

lemma inductLayers_euro_le_amer (S K u d disc p : ℚ) (ot : String)
    (hdisc : 0 ≤ disc) (hp0 : 0 ≤ p) (hp1 : p ≤ 1) :
    ∀ (i : ℕ) (ve va : List ℚ), (∀ j, ve.getD j 0 ≤ va.getD j 0) →
      ∀ j, (inductLayers S K u d disc p ot "european" i ve).getD j 0 ≤
        (inductLayers S K u d disc p ot "american" i va).getD j 0 := by
  intro i
  induction i with
  | zero =>
    intro ve va hle j
    simpa [inductLayers] using hle j
  | succ i ih =>
    intro ve va hle j
    rw [inductLayers, inductLayers]
    exact ih _ _ (stepLayer_euro_le_amer S K u d disc p ot hdisc hp0 hp1 i ve va hle) j

/-- Claim C4: whenever both the american-style and the european-style pricing
calls succeed on otherwise identical parameters (under a non-negative
exponential, as `Math.exp` is), the american price dominates the european
price. -/
theorem american_ge_european (E : NumEnv) (S K T r sigma n : ℚ) (ot : String)
    (q va ve : ℚ) (hexp : ∀ x, 0 ≤ E.exp x)
    (ha : binomialOptionPricing E S K T r sigma n ot "american" q = .ok va)
    (he : binomialOptionPricing E S K T r sigma n ot "european" q = .ok ve) :
    ve ≤ va := by
  obtain ⟨-, -, hp0, hp1, hva⟩ :=
    binomialOptionPricing_ok_inv E S K T r sigma n ot "american" q va ha
  obtain ⟨-, -, -, -, hve⟩ :=
    binomialOptionPricing_ok_inv E S K T r sigma n ot "european" q ve he
  rw [hva, hve]
  exact inductLayers_euro_le_amer S K (upFactor E sigma (T / n))
    (1 / upFactor E sigma (T / n)) (E.exp (-(r * (T / n))))
    (rnProbFormula E (upFactor E sigma (T / n)) (1 / upFactor E sigma (T / n)) r q (T / n))
    ot (hexp _) hp0 hp1 n.num.toNat _ _ (fun j => le_refl _) 0

/-- Witness for C4 at a concrete input: both styles price to `2` on the C1
witness parameters, and `2 ≤ 2`. -/
theorem american_ge_european_witness : (2:ℚ) ≤ 2 :=
  american_ge_european constEnv 1 1 1 0 1 1 "call" 0 2 2
    (fun _ => by norm_num [constEnv])
    (by
      have hr2 : List.range 2 = [0, 1] := by decide
      norm_num [binomialOptionPricing, validateInputs, upFactor, riskNeutralProb, rnProbFormula,
        payoff, inductLayers, stepLayer, constEnv, hr2, List.getD, Int.toNat_ofNat])
    (by
      have hr2 : List.range 2 = [0, 1] := by decide
      norm_num [binomialOptionPricing, validateInputs, upFactor, riskNeutralProb, rnProbFormula,
        payoff, inductLayers, stepLayer, constEnv, hr2, List.getD, Int.toNat_ofNat])

/-! ### Convergence driver (src/app.js:67-102) -/

/-- A `{n, price}` pair pushed on the convergence trail (src/app.js:80, 94). -/
structure ConvPoint where
  n : ℚ
  price : ℚ
deriving DecidableEq

/-- The record `{price, n, trail}` returned by `priceWithConvergence`
(src/app.js:96, 101). -/
structure ConvResult where
  price : ℚ
  n : ℚ
  trail : List ConvPoint
deriving DecidableEq

/-- The pricing call `binomialOptionPricing(params.S, ..., n, ...)` made by
`priceWithConvergence` at step count `m` (src/app.js:69-79, 83-93): every
argument comes from `params` except the step count. -/
def priceAtSteps (E : NumEnv) (params : Params) (m : ℚ) : Except PricingError ℚ :=
  binomialOptionPricing E params.S params.K params.T params.r params.sigma m
    params.option_type params.exercise_type params.q

/-- The `while (n <= nMax)` loop of `priceWithConvergence` (src/app.js:82-100).
The source loop never terminates when `step ≤ 0`; the model adds `0 < step` to
the guard so the definition is total, and the theorems about the loop assume
`0 < step` (the source default is `50`). -/
def convLoop (E : NumEnv) (params : Params) (nMax tol step prev n : ℚ)
    (trail : List ConvPoint) : Except PricingError ConvResult :=
  if hg : n ≤ nMax ∧ 0 < step then
    match priceAtSteps E params n with
    | .error e => .error e
    | .ok curr =>
      if |curr - prev| ≤ tol then .ok ⟨curr, n, trail ++ [⟨n, curr⟩]⟩
      else convLoop E params nMax tol step curr (n + step) (trail ++ [⟨n, curr⟩])
  else .ok ⟨prev, nMax, trail⟩
termination_by (⌊(nMax - n) / step⌋ + 1).toNat
decreasing_by
  obtain ⟨h1, h2⟩ := hg
  have hs : step ≠ 0 := ne_of_gt h2
  have key : (nMax - (n + step)) / step = (nMax - n) / step - 1 := by
    field_simp
    ring
  rw [key]
  have h0 : (0:ℚ) ≤ (nMax - n) / step := div_nonneg (by linarith) (le_of_lt h2)
  have hf : (0:ℤ) ≤ ⌊(nMax - n) / step⌋ := Int.floor_nonneg.mpr h0
  have h3 : ⌊(nMax - n) / step - 1⌋ = ⌊(nMax - n) / step⌋ - 1 := by
    exact_mod_cast Int.floor_sub_int ((nMax - n) / step) 1
  rw [h3]
  omega

/-- Source: `priceWithConvergence` (src/app.js:67-102).  The source defaults
are `nStart = 50`, `nMax = 2000`, `tol = 1e-4`, `step = 50`. -/
def priceWithConvergence (E : NumEnv) (params : Params)
    (nStart nMax tol step : ℚ) : Except PricingError ConvResult :=
  match priceAtSteps E params nStart with
  | .error e => .error e
  | .ok prev => convLoop E params nMax tol step prev (nStart + step) [⟨nStart, prev⟩]

/-- The loop's continue condition between adjacent trail entries: the later
price differs from the earlier one by more than `tol`. -/
def gapGT (tol : ℚ) (a b : ConvPoint) : Prop := tol < |b.price - a.price|

/-- Loop invariant for `convLoop`: a successful run extends the accumulated
trail by entries at `n, n + step, n + 2·step, ...` whose prices are the
pricer's outputs, and ends either by meeting the tolerance between the last
two entries (with every earlier adjacent gap above the tolerance) or by
exceeding `nMax` (with every adjacent gap above the tolerance). -/
lemma convLoop_spec (E : NumEnv) (params : Params) (nMax tol step : ℚ)
    (hstep : 0 < step) :
    ∀ (prev n : ℚ) (trail : List ConvPoint) (res : ConvResult)
      (hne : trail ≠ []),
      (trail.getLast hne).price = prev →
      List.Chain' (gapGT tol) trail →
      convLoop E params nMax tol step prev n trail = .ok res →
      ∃ ext, res.trail = trail ++ ext ∧
        (∀ k, ∀ hk : k < ext.length, (ext.get ⟨k, hk⟩).n = n + k * step ∧
          priceAtSteps E params (n + k * step) = .ok (ext.get ⟨k, hk⟩).price) ∧
        ((∃ t₀ a b, res.trail = t₀ ++ [a, b] ∧ List.Chain' (gapGT tol) (t₀ ++ [a]) ∧
            |b.price - a.price| ≤ tol ∧ res.price = b.price ∧ res.n = b.n) ∨
          (List.Chain' (gapGT tol) res.trail ∧ res.n = nMax ∧
            (∃ hne2 : res.trail ≠ [], res.price = (res.trail.getLast hne2).price) ∧
            nMax < n + ext.length * step)) := by
  intro prev n trail
  induction prev, n, trail using convLoop.induct E params nMax tol step with
  | case1 prev n trail hg e hpr =>
    intro res hne hlast hchain hok
    rw [convLoop, dif_pos hg, hpr] at hok
    simp at hok
  | case2 prev n trail hg p hpr htol =>
    intro res hne hlast hchain hok
    rw [convLoop, dif_pos hg, hpr] at hok
    dsimp only at hok
    rw [if_pos htol] at hok
    simp only [Except.ok.injEq] at hok
    subst hok
    refine ⟨[⟨n, p⟩], rfl, ?_, ?_⟩
    · intro k hk
      have hk0 : k = 0 := by
        simp at hk
        omega
      subst hk0
      refine ⟨by simp, ?_⟩
      have harg : n + (0:ℕ) * step = n := by push_cast; ring
      rw [harg]
      simpa using hpr
    · left
      refine ⟨trail.dropLast, trail.getLast hne, ⟨n, p⟩, ?_, ?_, ?_, rfl, rfl⟩
      · show trail ++ [⟨n, p⟩] = trail.dropLast ++ [trail.getLast hne, ⟨n, p⟩]
        conv_lhs => rw [← List.dropLast_append_getLast hne]
        simp
      · rw [List.dropLast_append_getLast hne]
        exact hchain
      · show |p - (trail.getLast hne).price| ≤ tol
        rw [hlast]
        exact htol
  | case3 prev n trail hg p hpr htol ih =>
    intro res hne hlast hchain hok
    rw [convLoop, dif_pos hg, hpr] at hok
    dsimp only at hok
    rw [if_neg htol] at hok
    have hne' : trail ++ [(⟨n, p⟩ : ConvPoint)] ≠ [] := by simp
    have hlast' : ((trail ++ [(⟨n, p⟩ : ConvPoint)]).getLast hne').price = p := by simp
    have hchain' : List.Chain' (gapGT tol) (trail ++ [⟨n, p⟩]) := by
      rw [List.chain'_append]
      refine ⟨hchain, List.chain'_singleton _, ?_⟩
      intro x hx y hy
      rw [List.getLast?_eq_getLast _ hne] at hx
      simp only [Option.mem_def, Option.some.injEq, List.head?_cons] at hx hy
      subst hx
      subst hy
      show tol < |p - (trail.getLast hne).price|
      rw [hlast]
      exact not_le.mp htol
    obtain ⟨ext', hext', hentries', houtcome'⟩ := ih res hne' hlast' hchain' hok
    refine ⟨⟨n, p⟩ :: ext', by rw [hext']; simp, ?_, ?_⟩
    · intro k hk
      cases k with
      | zero =>
        refine ⟨by simp, ?_⟩
        have harg : n + (0:ℕ) * step = n := by push_cast; ring
        rw [harg]
        simpa using hpr
      | succ k =>
        have hk' : k < ext'.length := by simpa using hk
        obtain ⟨h1, h2⟩ := hentries' k hk'
        have hget : ((⟨n, p⟩ :: ext').get ⟨k + 1, hk⟩) = ext'.get ⟨k, hk'⟩ := rfl
        have harg : n + ((k + 1 : ℕ) : ℚ) * step = n + step + (k : ℚ) * step := by
          push_cast
          ring
        refine ⟨?_, ?_⟩
        · rw [hget, h1, harg]
        · rw [harg, hget]
          exact h2
    · rcases houtcome' with hconv | ⟨hch, hn, hpl, hbound⟩
      · exact Or.inl hconv
      · refine Or.inr ⟨hch, hn, hpl, ?_⟩
        simp only [List.length_cons] at hbound ⊢
        push_cast at hbound ⊢
        linarith
  | case4 prev n trail hg =>
    intro res hne hlast hchain hok
    rw [convLoop, dif_neg hg] at hok
    simp only [Except.ok.injEq] at hok
    subst hok
    have hnm : nMax < n := by
      by_contra hc
      exact hg ⟨not_lt.mp hc, hstep⟩
    refine ⟨[], by simp, ?_, Or.inr ⟨hchain, rfl, ⟨hne, hlast.symm⟩, ?_⟩⟩
    · intro k hk
      simp at hk
    · simpa using hnm

/-- Totality of the loop when every pricing call along the arithmetic
progression of step counts (while within `nMax`) succeeds. -/
lemma convLoop_total (E : NumEnv) (params : Params) (nMax tol step nStart : ℚ)
    (hstep : 0 < step)
    (hall : ∀ k : ℕ, nStart + k * step ≤ nMax →
      ∃ v, priceAtSteps E params (nStart + k * step) = .ok v) :
    ∀ (prev n : ℚ) (trail : List ConvPoint),
      (∃ k : ℕ, n = nStart + k * step) →
      ∃ res, convLoop E params nMax tol step prev n trail = .ok res := by
  intro prev n trail
  induction prev, n, trail using convLoop.induct E params nMax tol step with
  | case1 prev n trail hg e hpr =>
    rintro ⟨k, rfl⟩
    obtain ⟨v, hv⟩ := hall k hg.1
    rw [hv] at hpr
    simp at hpr
  | case2 prev n trail hg p hpr htol =>
    intro _
    refine ⟨⟨p, n, trail ++ [⟨n, p⟩]⟩, ?_⟩
    rw [convLoop, dif_pos hg, hpr]
    dsimp only
    rw [if_pos htol]
  | case3 prev n trail hg p hpr htol ih =>
    rintro ⟨k, rfl⟩
    obtain ⟨res, hres⟩ := ih ⟨k + 1, by push_cast; ring⟩
    refine ⟨res, ?_⟩
    rw [convLoop, dif_pos hg, hpr]
    dsimp only
    rw [if_neg htol]
    exact hres
  | case4 prev n trail hg =>
    intro _
    exact ⟨_, by rw [convLoop, dif_neg hg]⟩

/-- A successful loop run only ever appends to the accumulated trail. -/
lemma convLoop_trail_extends (E : NumEnv) (params : Params) (nMax tol step : ℚ) :
    ∀ (prev n : ℚ) (trail : List ConvPoint) (res : ConvResult),
      convLoop E params nMax tol step prev n trail = .ok res →
      ∃ ext, res.trail = trail ++ ext := by
  intro prev n trail
  induction prev, n, trail using convLoop.induct E params nMax tol step with
  | case1 prev n trail hg e hpr =>
    intro res hok
    rw [convLoop, dif_pos hg, hpr] at hok
    simp at hok
  | case2 prev n trail hg p hpr htol =>
    intro res hok
    rw [convLoop, dif_pos hg, hpr] at hok
    dsimp only at hok
    rw [if_pos htol] at hok
    simp only [Except.ok.injEq] at hok
    subst hok
    exact ⟨[⟨n, p⟩], rfl⟩
  | case3 prev n trail hg p hpr htol ih =>
    intro res hok
    rw [convLoop, dif_pos hg, hpr] at hok
    dsimp only at hok
    rw [if_neg htol] at hok
    obtain ⟨ext, hext⟩ := ih res hok
    exact ⟨⟨n, p⟩ :: ext, by rw [hext]; simp⟩
  | case4 prev n trail hg =>
    intro res hok
    rw [convLoop, dif_neg hg] at hok
    simp only [Except.ok.injEq] at hok
    subst hok
    exact ⟨[], by simp⟩

/-- Claim C5: a successful `priceWithConvergence` run returns a trail whose
`k`-th entry is at step count `nStart + k·step` with the pricer's output as
price, whose first entry is at `nStart`; the returned price is the last trail
price; and the run ends either at the first `n` whose price moved at most
`tol` from the previous one (returning that `n`), or with `n = nMax` after
the progression exceeded `nMax` with no adjacent gap within tolerance.
Moreover the run returns successfully whenever the pricing calls along the
progression succeed. -/
theorem priceWithConvergence_spec (E : NumEnv) (params : Params)
    (nStart nMax tol step : ℚ) (hstep : 0 < step) :
    (∀ res, priceWithConvergence E params nStart nMax tol step = .ok res →
      (∀ k, ∀ hk : k < res.trail.length,
        (res.trail.get ⟨k, hk⟩).n = nStart + k * step ∧
        priceAtSteps E params (nStart + k * step) = .ok (res.trail.get ⟨k, hk⟩).price) ∧
      (∃ hne : res.trail ≠ [],
        (res.trail.head hne).n = nStart ∧
        res.price = (res.trail.getLast hne).price) ∧
      ((∃ t₀ a b, res.trail = t₀ ++ [a, b] ∧ List.Chain' (gapGT tol) (t₀ ++ [a]) ∧
          |b.price - a.price| ≤ tol ∧ res.price = b.price ∧ res.n = b.n) ∨
        (List.Chain' (gapGT tol) res.trail ∧ res.n = nMax ∧
          nMax < nStart + res.trail.length * step))) ∧
    ((∀ k : ℕ, k = 0 ∨ nStart + k * step ≤ nMax →
        ∃ v, priceAtSteps E params (nStart + k * step) = .ok v) →
      ∃ res, priceWithConvergence E params nStart nMax tol step = .ok res) := by
  constructor
  · intro res hok
    unfold priceWithConvergence at hok
    rcases h0 : priceAtSteps E params nStart with e | prev <;> rw [h0] at hok <;>
      dsimp only at hok
    · simp at hok
    · obtain ⟨ext, hext, hentries, houtcome⟩ :=
        convLoop_spec E params nMax tol step hstep prev (nStart + step)
          [⟨nStart, prev⟩] res (by simp) (by simp) (List.chain'_singleton _) hok
      have htrail : res.trail = ⟨nStart, prev⟩ :: ext := by simpa using hext
      refine ⟨?_, ?_, ?_⟩
      · intro k hk
        have hk2 : k < (⟨nStart, prev⟩ :: ext).length := htrail ▸ hk
        have hget : res.trail.get ⟨k, hk⟩ = (⟨nStart, prev⟩ :: ext).get ⟨k, hk2⟩ :=
          List.get_of_eq htrail _
        cases k with
        | zero =>
          refine ⟨?_, ?_⟩
          · rw [hget]
            show nStart = nStart + (0:ℕ) * step
            push_cast
            ring
          · have harg : nStart + ((0:ℕ) : ℚ) * step = nStart := by push_cast; ring
            rw [harg, hget]
            exact h0
        | succ k =>
          have hk' : k < ext.length := by simpa using hk2
          obtain ⟨h1, h2⟩ := hentries k hk'
          have hcons : ((⟨nStart, prev⟩ :: ext).get ⟨k + 1, hk2⟩) = ext.get ⟨k, hk'⟩ := rfl
          have harg : nStart + ((k + 1 : ℕ) : ℚ) * step = nStart + step + (k : ℚ) * step := by
            push_cast
            ring
          refine ⟨?_, ?_⟩
          · rw [hget, hcons, h1, harg]
          · rw [harg, hget, hcons]
            exact h2
      · have hne : res.trail ≠ [] := by rw [htrail]; simp
        refine ⟨hne, ?_, ?_⟩
        · simp [htrail]
        · rcases houtcome with ⟨t₀, a, b, hconv, -, -, hpb, -⟩ | ⟨-, -, ⟨hne2, hpl⟩, -⟩
          · rw [hpb]
            have : res.trail.getLast hne = b := by
              have h2 : res.trail = (t₀ ++ [a]) ++ [b] := by rw [hconv]; simp
              rw [List.getLast_congr hne (by simp) h2]
              simp
            rw [this]
          · exact hpl
      · rcases houtcome with hconv | ⟨hch, hn, -, hbound⟩
        · exact Or.inl hconv
        · refine Or.inr ⟨hch, hn, ?_⟩
          rw [htrail]
          simp only [List.length_cons] at *
          push_cast at hbound ⊢
          linarith
  · intro hall
    obtain ⟨v0, hv0⟩ := hall 0 (Or.inl rfl)
    have hv0' : priceAtSteps E params nStart = .ok v0 := by
      have harg : nStart + ((0:ℕ) : ℚ) * step = nStart := by push_cast; ring
      rw [← harg]
      exact hv0
    obtain ⟨res, hres⟩ :=
      convLoop_total E params nMax tol step nStart hstep
        (fun k hk => hall k (Or.inr hk)) v0 (nStart + step) [⟨nStart, v0⟩]
        ⟨1, by push_cast; ring⟩
    refine ⟨res, ?_⟩
    unfold priceWithConvergence
    rw [hv0']
    dsimp only
    exact hres

/-- Concrete parameter record used by the concrete evaluations:
`S = K = T = 1`, `r = q = 0`, `sigma = 1`, `n = 1`, european call. -/
def valParams : Params := ⟨1, 1, 1, 0, 1, 0, 1, "call", "european"⟩

lemma priceAtSteps_one : priceAtSteps constEnv valParams 1 = .ok 2 := by
  have hr2 : List.range 2 = [0, 1] := by decide
  norm_num [priceAtSteps, valParams, binomialOptionPricing, validateInputs, upFactor,
    riskNeutralProb, rnProbFormula, payoff, inductLayers, stepLayer, constEnv, hr2,
    List.getD, Int.toNat_ofNat]

set_option maxHeartbeats 2000000 in
lemma priceAtSteps_two : priceAtSteps constEnv valParams 2 = .ok 12 := by
  have hr3 : List.range 3 = [0, 1, 2] := by decide
  have hn : (2:ℚ).num.toNat = 2 := by
    norm_num [Rat.num_ofNat]
    decide
  have hi : (2:ℤ).toNat = 2 := by decide
  have hs : ("european" = "american") = False := by simp
  norm_num [priceAtSteps, valParams, binomialOptionPricing, validateInputs, upFactor,
    riskNeutralProb, rnProbFormula, payoff, inductLayers, stepLayer, constEnv, hr3, hn, hi, hs,
    List.getD, Int.toNat_ofNat, Rat.num_ofNat]

/-- Witness for C5: the concrete run with `nStart = 1, nMax = 2, tol = 0,
`step = 1` on `valParams` under `constEnv` returns successfully. -/
theorem priceWithConvergence_spec_witness :
    ∃ res, priceWithConvergence constEnv valParams 1 2 0 1 = .ok res :=
  (priceWithConvergence_spec constEnv valParams 1 2 0 1 (by norm_num)).2
    (by
      intro k hk
      rcases hk with hk0 | hkle
      · subst hk0
        exact ⟨2, by norm_num [priceAtSteps_one]⟩
      · have hk1 : k ≤ 1 := by
          have : (k : ℚ) ≤ 1 := by linarith
          exact_mod_cast this
        interval_cases k
        · exact ⟨2, by norm_num [priceAtSteps_one]⟩
        · exact ⟨12, by norm_num [priceAtSteps_two]⟩)

/-- Counterexample for C6 as stated: with the positive knobs `nStart = 1,
nMax = 1, step = 1` and valid parameters, the while-loop body never runs and
the returned trail has exactly one entry, not at least two. -/
theorem priceWithConvergence_single_entry_trail :
    priceWithConvergence constEnv valParams 1 1 0 1 = .ok ⟨2, 1, [⟨1, 2⟩]⟩ ∧
    (ConvResult.mk 2 1 [⟨1, 2⟩]).trail.length = 1 := by
  refine ⟨?_, rfl⟩
  unfold priceWithConvergence
  rw [priceAtSteps_one]
  dsimp only
  rw [convLoop, dif_neg (show ¬((1:ℚ) + 1 ≤ 1 ∧ (0:ℚ) < 1) by norm_num)]

/-- Amended C6: when the tuning knobs satisfy `nStart + step ≤ nMax` (as the
source defaults `nStart = 50, nMax = 2000, step = 50` do), every successful
run prices at least twice and the returned trail has length at least two. -/
theorem priceWithConvergence_two_calls (E : NumEnv) (params : Params)
    (nStart nMax tol step : ℚ) (res : ConvResult)
    (hstep : 0 < step) (hle : nStart + step ≤ nMax)
    (h : priceWithConvergence E params nStart nMax tol step = .ok res) :
    2 ≤ res.trail.length := by
  unfold priceWithConvergence at h
  rcases h0 : priceAtSteps E params nStart with e | prev <;> rw [h0] at h <;>
    dsimp only at h
  · simp at h
  · rw [convLoop, dif_pos ⟨hle, hstep⟩] at h
    rcases h1 : priceAtSteps E params (nStart + step) with e | curr <;> rw [h1] at h <;>
      dsimp only at h
    · simp at h
    · by_cases htol : |curr - prev| ≤ tol
      · rw [if_pos htol] at h
        simp only [Except.ok.injEq] at h
        subst h
        simp
      · rw [if_neg htol] at h
        obtain ⟨ext, hext⟩ := convLoop_trail_extends E params nMax tol step _ _ _ res h
        rw [hext]
        simp [List.length_append]

/-- Witness for the amended C6: the concrete run `nStart = 1, nMax = 2,
tol = 0, step = 1` returns a trail of length two. -/
theorem priceWithConvergence_two_calls_witness :
    2 ≤ (ConvResult.mk 12 2 [⟨1, 2⟩, ⟨2, 12⟩]).trail.length :=
  priceWithConvergence_two_calls constEnv valParams 1 2 0 1 ⟨12, 2, [⟨1, 2⟩, ⟨2, 12⟩]⟩
    (by norm_num) (by norm_num)
    (by
      unfold priceWithConvergence
      rw [priceAtSteps_one]
      dsimp only
      rw [convLoop, dif_pos (show (1:ℚ) + 1 ≤ 2 ∧ (0:ℚ) < 1 by norm_num)]
      rw [show (1:ℚ) + 1 = 2 by norm_num, priceAtSteps_two]
      dsimp only
      rw [if_neg (show ¬(|(12:ℚ) - 2| ≤ 0) by norm_num)]
      rw [convLoop, dif_neg (show ¬((2:ℚ) + 1 ≤ 2 ∧ (0:ℚ) < 1) by norm_num)]
      rfl)

/-! ### Implied-volatility solver (src/app.js:104-152) -/

/-- The pricing call made by `impliedVolatility` at volatility `sigma`
(src/app.js:108-129, 136-146): every argument comes from `params` except the
volatility. -/
def priceAtVol (E : NumEnv) (params : Params) (sigma : ℚ) : Except PricingError ℚ :=
  binomialOptionPricing E params.S params.K params.T params.r sigma params.n
    params.option_type params.exercise_type params.q

/-- The bisection loop of `impliedVolatility` (src/app.js:134-151), by
recursion on the remaining iteration count; when the count runs out, the
midpoint of the final `[low, high]` interval is returned (src/app.js:151). -/
def bisect (E : NumEnv) (marketPrice : ℚ) (params : Params) (tol : ℚ) :
    ℚ → ℚ → ℕ → Except PricingError ℚ
  | low, high, 0 => .ok (0.5 * (low + high))
  | low, high, k + 1 =>
    let mid := 0.5 * (low + high)
    match priceAtVol E params mid with
    | .error e => .error e
    | .ok priceMid =>
      if |priceMid - marketPrice| ≤ tol then .ok mid
      else if priceMid < marketPrice then bisect E marketPrice params tol mid high k
      else bisect E marketPrice params tol low mid k

/-- Source: `impliedVolatility` (src/app.js:104-152); the source defaults are
`volLow = 1e-6`, `volHigh = 5`, `tol = 1e-6`, `maxIter = 100`. -/
def impliedVolatility (E : NumEnv) (marketPrice : ℚ) (params : Params)
    (volLow volHigh tol : ℚ) (maxIter : ℕ) : Except PricingError ℚ :=
  if ¬(marketPrice > 0) then .error .invalidTarget
  else
    match priceAtVol E params volLow with
    | .error e => .error e
    | .ok priceLow =>
      match priceAtVol E params volHigh with
      | .error e => .error e
      | .ok priceHigh =>
        if ¬(priceLow ≤ marketPrice ∧ marketPrice ≤ priceHigh) then .error .notBracketed
        else bisect E marketPrice params tol volLow volHigh maxIter

/-- Total counterpart of the bisection loop used to state C7: identical
narrowing with the pricer's value read through `Except.toOption`; it agrees
with `bisect` whenever the interior pricing calls succeed
(`bisect_eq_bisectPure`). -/
def bisectPure (E : NumEnv) (marketPrice : ℚ) (params : Params) (tol : ℚ) :
    ℚ → ℚ → ℕ → ℚ
  | low, high, 0 => 0.5 * (low + high)
  | low, high, k + 1 =>
    let mid := 0.5 * (low + high)
    let priceMid := ((priceAtVol E params mid).toOption).getD 0
    if |priceMid - marketPrice| ≤ tol then mid
    else if priceMid < marketPrice then bisectPure E marketPrice params tol mid high k
    else bisectPure E marketPrice params tol low mid k

/-- The lattice pricer only ever throws `invalidParameter`, `degenerateTree`
or `arbitrageViolation`, never the solver-level error kinds. -/
lemma binomialOptionPricing_error_kinds (E : NumEnv) (S K T r sigma n : ℚ)
    (ot et : String) (q : ℚ) (e : PricingError)
    (h : binomialOptionPricing E S K T r sigma n ot et q = .error e) :
    e ≠ .invalidTarget ∧ e ≠ .notBracketed := by
  rcases validateInputs_cases ⟨S, K, T, r, sigma, q, n, ot, et⟩ with hok | ⟨msg, hmsg⟩
  · rw [binomialOptionPricing_ok_unfold E S K T r sigma n ot et q hok] at h
    by_cases hud : upFactor E sigma (T / n) = 1 / upFactor E sigma (T / n)
    · rw [if_pos hud] at h
      simp only [Except.error.injEq] at h
      subst h
      exact ⟨by simp, by simp⟩
    · rw [if_neg hud] at h
      unfold riskNeutralProb at h
      by_cases hp : rnProbFormula E (upFactor E sigma (T / n)) (1 / upFactor E sigma (T / n)) r q (T / n) < 0 ∨
          rnProbFormula E (upFactor E sigma (T / n)) (1 / upFactor E sigma (T / n)) r q (T / n) > 1
      · rw [if_pos hp] at h
        dsimp only at h
        simp only [Except.error.injEq] at h
        subst h
        exact ⟨by simp, by simp⟩
      · rw [if_neg hp] at h
        dsimp only at h
        simp at h
  · unfold binomialOptionPricing at h
    rw [hmsg] at h
    dsimp only at h
    simp only [Except.error.injEq] at h
    subst h
    exact ⟨by simp, by simp⟩

/-- Every error escaping the bisection loop is an error of some pricing call. -/
lemma bisect_error_kinds (E : NumEnv) (marketPrice : ℚ) (params : Params) (tol : ℚ) :
    ∀ (k : ℕ) (low high : ℚ) (e : PricingError),
      bisect E marketPrice params tol low high k = .error e →
      ∃ sigma, priceAtVol E params sigma = .error e := by
  intro k
  induction k with
  | zero =>
    intro low high e h
    simp [bisect] at h
  | succ k ih =>
    intro low high e h
    rw [bisect] at h
    rcases hm : priceAtVol E params (0.5 * (low + high)) with e2 | pm <;> rw [hm] at h <;>
      dsimp only at h
    · simp only [Except.error.injEq] at h
      subst h
      exact ⟨_, hm⟩
    · by_cases h1 : |pm - marketPrice| ≤ tol
      · rw [if_pos h1] at h
        simp at h
      · rw [if_neg h1] at h
        by_cases h2 : pm < marketPrice
        · rw [if_pos h2] at h
          exact ih _ _ _ h
        · rw [if_neg h2] at h
          exact ih _ _ _ h

/-- When every interior pricing call succeeds, the bisection loop never fails
and computes exactly the total narrowing `bisectPure`. -/
lemma bisect_eq_bisectPure (E : NumEnv) (marketPrice : ℚ) (params : Params)
    (tol volLow volHigh : ℚ)
    (hmid : ∀ sigma, volLow < sigma → sigma < volHigh →
      ∃ v, priceAtVol E params sigma = .ok v) :
    ∀ (k : ℕ) (low high : ℚ), volLow ≤ low → low < high → high ≤ volHigh →
      bisect E marketPrice params tol low high k =
        .ok (bisectPure E marketPrice params tol low high k) := by
  intro k
  induction k with
  | zero =>
    intro low high _ _ _
    rfl
  | succ k ih =>
    intro low high hl hlh hh
    obtain ⟨v, hv⟩ := hmid (0.5 * (low + high)) (by linarith) (by linarith)
    rw [bisect, bisectPure, hv]
    dsimp only
    simp only [hv, Except.toOption, Option.getD]
    by_cases h1 : |v - marketPrice| ≤ tol
    · rw [if_pos h1, if_pos h1]
    · rw [if_neg h1, if_neg h1]
      by_cases h2 : v < marketPrice
      · rw [if_pos h2, if_pos h2]
        exact ih _ _ (by linarith) (by linarith) hh
      · rw [if_neg h2, if_neg h2]
        exact ih _ _ hl (by linarith) (by linarith)

/-- Claim C7: `impliedVolatility` fails with `invalidTarget` iff the target is
non-positive, and that check precedes any pricing call (the failure does not
depend on the pricing environment); given successful endpoint pricings it
fails with `notBracketed` iff the target lies outside `[priceLow, priceHigh]`;
when the target is bracketed and the interior pricing calls succeed it returns
a volatility — the value of the total narrowing `bisectPure` — without error,
and `bisectPure` at an exhausted iteration budget is the midpoint of the final
interval. -/
theorem impliedVolatility_spec (E : NumEnv) (marketPrice : ℚ) (params : Params)
    (volLow volHigh tol : ℚ) (maxIter : ℕ) :
    (impliedVolatility E marketPrice params volLow volHigh tol maxIter =
        .error .invalidTarget ↔ marketPrice ≤ 0) ∧
    (marketPrice ≤ 0 → ∀ E2 : NumEnv,
      impliedVolatility E2 marketPrice params volLow volHigh tol maxIter =
        .error .invalidTarget) ∧
    (∀ pl ph, 0 < marketPrice →
      priceAtVol E params volLow = .ok pl → priceAtVol E params volHigh = .ok ph →
      (impliedVolatility E marketPrice params volLow volHigh tol maxIter =
          .error .notBracketed ↔ ¬(pl ≤ marketPrice ∧ marketPrice ≤ ph))) ∧
    (∀ pl ph, 0 < marketPrice →
      priceAtVol E params volLow = .ok pl → priceAtVol E params volHigh = .ok ph →
      pl ≤ marketPrice → marketPrice ≤ ph → volLow < volHigh →
      (∀ sigma, volLow < sigma → sigma < volHigh →
        ∃ v, priceAtVol E params sigma = .ok v) →
      impliedVolatility E marketPrice params volLow volHigh tol maxIter =
        .ok (bisectPure E marketPrice params tol volLow volHigh maxIter)) ∧
    (∀ low high, bisectPure E marketPrice params tol low high 0 = 0.5 * (low + high)) := by
  have himp : ∀ (hmp : marketPrice ≤ 0) (E2 : NumEnv),
      impliedVolatility E2 marketPrice params volLow volHigh tol maxIter =
        .error .invalidTarget := by
    intro hmp E2
    unfold impliedVolatility
    rw [if_pos (not_lt.mpr hmp)]
  refine ⟨⟨?_, fun hmp => himp hmp E⟩, himp, ?_, ?_, fun low high => rfl⟩
  · intro h
    by_contra hmp
    push_neg at hmp
    unfold impliedVolatility at h
    rw [if_neg (not_not.mpr hmp)] at h
    rcases hl : priceAtVol E params volLow with e | pl <;> rw [hl] at h <;> dsimp only at h
    · simp only [Except.error.injEq] at h
      subst h
      unfold priceAtVol at hl
      exact (binomialOptionPricing_error_kinds _ _ _ _ _ _ _ _ _ _ _ hl).1 rfl
    · rcases hh : priceAtVol E params volHigh with e | ph <;> rw [hh] at h <;> dsimp only at h
      · simp only [Except.error.injEq] at h
        subst h
        unfold priceAtVol at hh
        exact (binomialOptionPricing_error_kinds _ _ _ _ _ _ _ _ _ _ _ hh).1 rfl
      · by_cases hb : pl ≤ marketPrice ∧ marketPrice ≤ ph
        · rw [if_neg (not_not.mpr hb)] at h
          obtain ⟨sigma, hσ⟩ := bisect_error_kinds E marketPrice params tol maxIter _ _ _ h
          unfold priceAtVol at hσ
          exact (binomialOptionPricing_error_kinds _ _ _ _ _ _ _ _ _ _ _ hσ).1 rfl
        · rw [if_pos hb] at h
          simp at h
  · intro pl ph hmp hpl hph
    unfold impliedVolatility
    rw [if_neg (not_not.mpr hmp), hpl]
    dsimp only
    rw [hph]
    dsimp only
    by_cases hb : pl ≤ marketPrice ∧ marketPrice ≤ ph
    · rw [if_neg (not_not.mpr hb)]
      refine iff_of_false ?_ (not_not.mpr hb)
      intro h
      obtain ⟨sigma, hσ⟩ := bisect_error_kinds E marketPrice params tol maxIter _ _ _ h
      unfold priceAtVol at hσ
      exact (binomialOptionPricing_error_kinds _ _ _ _ _ _ _ _ _ _ _ hσ).2 rfl
    · rw [if_pos hb]
      exact iff_of_true rfl hb
  · intro pl ph hmp hpl hph hble hbge hlh hmid
    unfold impliedVolatility
    rw [if_neg (not_not.mpr hmp), hpl]
    dsimp only
    rw [hph]
    dsimp only
    rw [if_neg (not_not.mpr ⟨hble, hbge⟩)]
    exact bisect_eq_bisectPure E marketPrice params tol volLow volHigh hmid maxIter
      volLow volHigh (le_refl _) hlh (le_refl _)

/-- Concrete evaluation for the C7 witness: on `valParams` under `constEnv`
the pricer returns `2` at every positive volatility. -/
lemma priceAtVol_pos (sigma : ℚ) (hσ : 0 < sigma) :
    priceAtVol constEnv valParams sigma = .ok 2 := by
  have hr2 : List.range 2 = [0, 1] := by decide
  have h1 : (sigma > 0) = True := by simp [hσ]
  have h2 : (sigma < 0) = False := by simp [not_lt.mpr hσ.le]
  norm_num [priceAtVol, valParams, binomialOptionPricing, validateInputs, upFactor,
    riskNeutralProb, rnProbFormula, payoff, inductLayers, stepLayer, constEnv, hr2,
    List.getD, Int.toNat_ofNat, h1, h2]

/-- Witness for C7 at a concrete bracketed input: target `2`, bounds
`1/2 < 3/2`, tolerance `0`, five iterations. -/
theorem impliedVolatility_spec_witness :
    impliedVolatility constEnv 2 valParams (1/2) (3/2) 0 5 =
      .ok (bisectPure constEnv 2 valParams 0 (1/2) (3/2) 5) :=
  ((impliedVolatility_spec constEnv 2 valParams (1/2) (3/2) 0 5).2.2.2.1) 2 2
    (by norm_num)
    (priceAtVol_pos (1/2) (by norm_num))
    (priceAtVol_pos (3/2) (by norm_num))
    (by norm_num) (by norm_num) (by norm_num)
    (fun sigma hs1 hs2 => ⟨2, priceAtVol_pos sigma (by linarith)⟩)

/-! ### Greeks estimator (src/app.js:154-218) -/

/-- The record `{price, delta, gamma, theta}` returned by `greeks`
(src/app.js:217). -/
structure GreeksResult where
  price : ℚ
  delta : ℚ
  gamma : ℚ
  theta : ℚ
deriving DecidableEq

/-- Source: `greeks` (src/app.js:154-218).  The null-coalescing defaults
`dS ?? max(0.01*S, 1e-4)` and `dT ?? max(1e-4, 1e-3*T)` are modelled with
`Option.getD`; five pricing calls perturb only spot and expiry, with the
downward expiry floored at `1e-8` (src/app.js:207) while the downward spot is
not floored. -/
def greeks (E : NumEnv) (params : Params) (dS dT : Option ℚ) :
    Except PricingError GreeksResult :=
  let stepS := dS.getD (max (1/100 * params.S) (1/10000))
  let stepT := dT.getD (max (1/10000) (1/1000 * params.T))
  match binomialOptionPricing E params.S params.K params.T params.r params.sigma
      params.n params.option_type params.exercise_type params.q with
  | .error e => .error e
  | .ok base =>
    match binomialOptionPricing E (params.S + stepS) params.K params.T params.r
        params.sigma params.n params.option_type params.exercise_type params.q with
    | .error e => .error e
    | .ok up =>
      match binomialOptionPricing E (params.S - stepS) params.K params.T params.r
          params.sigma params.n params.option_type params.exercise_type params.q with
      | .error e => .error e
      | .ok down =>
        match binomialOptionPricing E params.S params.K (params.T + stepT) params.r
            params.sigma params.n params.option_type params.exercise_type params.q with
        | .error e => .error e
        | .ok upT =>
          match binomialOptionPricing E params.S params.K
              (max (params.T - stepT) (1/100000000)) params.r params.sigma
              params.n params.option_type params.exercise_type params.q with
          | .error e => .error e
          | .ok downT =>
            .ok ⟨base, (up - down) / (2 * stepS), (up - 2 * base + down) / stepS ^ 2,
              (upT - downT) / (2 * stepT)⟩

/-- Claim C9: when the five pricing calls succeed, `greeks` returns
`{price = base, delta = (up − down)/(2·dS), gamma = (up − 2·base + down)/dS²,
theta = (upT − downT)/(2·dT)}` with the default steps
`dS = max(0.01·S, 1e-4)`, `dT = max(1e-4, 0.001·T)` when no overrides are
given, every call sharing `n`, strike, rate, volatility, dividend yield, kind
and style with the input. -/
theorem greeks_spec (E : NumEnv) (params : Params) (dS dT : Option ℚ)
    (base up down upT downT : ℚ)
    (hb : binomialOptionPricing E params.S params.K params.T params.r params.sigma
      params.n params.option_type params.exercise_type params.q = .ok base)
    (hu : binomialOptionPricing E
      (params.S + dS.getD (max (1/100 * params.S) (1/10000))) params.K params.T
      params.r params.sigma params.n params.option_type params.exercise_type
      params.q = .ok up)
    (hd : binomialOptionPricing E
      (params.S - dS.getD (max (1/100 * params.S) (1/10000))) params.K params.T
      params.r params.sigma params.n params.option_type params.exercise_type
      params.q = .ok down)
    (hut : binomialOptionPricing E params.S params.K
      (params.T + dT.getD (max (1/10000) (1/1000 * params.T))) params.r
      params.sigma params.n params.option_type params.exercise_type
      params.q = .ok upT)
    (hdt : binomialOptionPricing E params.S params.K
      (max (params.T - dT.getD (max (1/10000) (1/1000 * params.T))) (1/100000000))
      params.r params.sigma params.n params.option_type params.exercise_type
      params.q = .ok downT) :
    greeks E params dS dT = .ok ⟨base,
      (up - down) / (2 * dS.getD (max (1/100 * params.S) (1/10000))),
      (up - 2 * base + down) / (dS.getD (max (1/100 * params.S) (1/10000))) ^ 2,
      (upT - downT) / (2 * dT.getD (max (1/10000) (1/1000 * params.T)))⟩ := by
  unfold greeks
  dsimp only
  rw [hb]
  dsimp only
  rw [hu]
  dsimp only
  rw [hd]
  dsimp only
  rw [hut]
  dsimp only
  rw [hdt]

/-- Witness for C9: `valParams` under `constEnv` with no overrides gives
`price = 2`, `delta = 4`, `gamma = 0`, `theta = 0`. -/
theorem greeks_spec_witness :
    greeks constEnv valParams none none = .ok ⟨2, 4, 0, 0⟩ := by
  have hr2 : List.range 2 = [0, 1] := by decide
  have heval := greeks_spec constEnv valParams none none 2 (51/25) (49/25) 2 2
    (by norm_num [valParams, binomialOptionPricing, validateInputs, upFactor,
      riskNeutralProb, rnProbFormula, payoff, inductLayers, stepLayer, constEnv, hr2,
      List.getD, Int.toNat_ofNat, Option.getD_none, max_def])
    (by norm_num [valParams, binomialOptionPricing, validateInputs, upFactor,
      riskNeutralProb, rnProbFormula, payoff, inductLayers, stepLayer, constEnv, hr2,
      List.getD, Int.toNat_ofNat, Option.getD_none, max_def])
    (by norm_num [valParams, binomialOptionPricing, validateInputs, upFactor,
      riskNeutralProb, rnProbFormula, payoff, inductLayers, stepLayer, constEnv, hr2,
      List.getD, Int.toNat_ofNat, Option.getD_none, max_def])
    (by norm_num [valParams, binomialOptionPricing, validateInputs, upFactor,
      riskNeutralProb, rnProbFormula, payoff, inductLayers, stepLayer, constEnv, hr2,
      List.getD, Int.toNat_ofNat, Option.getD_none, max_def])
    (by norm_num [valParams, binomialOptionPricing, validateInputs, upFactor,
      riskNeutralProb, rnProbFormula, payoff, inductLayers, stepLayer, constEnv, hr2,
      List.getD, Int.toNat_ofNat, Option.getD_none, max_def])
  rw [heval]
  norm_num [valParams, Option.getD_none, max_def]

/-- Claim C10: for parameters with `0 < S ≤ 1e-4` and no spot-step override,
the default spot step collapses to `1e-4`, the downward spot bump is
non-positive, `greeks` can never return a result, and as soon as the first two
pricing calls succeed the error raised is the S/K-positivity
`InvalidParameter` from the third (down-bumped) call. -/
theorem greeks_tiny_spot (E : NumEnv) (params : Params) (dT : Option ℚ)
    (hS0 : 0 < params.S) (hSle : params.S ≤ 1/10000) :
    ((none : Option ℚ).getD (max (1/100 * params.S) (1/10000)) = 1/10000) ∧
    (params.S - 1/10000 ≤ 0) ∧
    (∀ res, greeks E params none dT ≠ .ok res) ∧
    (∀ base up,
      binomialOptionPricing E params.S params.K params.T params.r params.sigma
        params.n params.option_type params.exercise_type params.q = .ok base →
      binomialOptionPricing E (params.S + 1/10000) params.K params.T params.r
        params.sigma params.n params.option_type params.exercise_type
        params.q = .ok up →
      greeks E params none dT = .error (.invalidParameter "S and K must be positive.")) := by
  have hstep : (none : Option ℚ).getD (max (1/100 * params.S) (1/10000)) = 1/10000 := by
    rw [Option.getD_none, max_eq_right (by linarith)]
  have hdown : binomialOptionPricing E (params.S - 1/10000) params.K params.T
      params.r params.sigma params.n params.option_type params.exercise_type
      params.q = .error (.invalidParameter "S and K must be positive.") := by
    unfold binomialOptionPricing
    have hv : validateInputs ⟨params.S - 1/10000, params.K, params.T, params.r,
        params.sigma, params.q, params.n, params.option_type, params.exercise_type⟩ =
        .error (.invalidParameter "S and K must be positive.") := by
      unfold validateInputs
      rw [if_pos (by rintro ⟨hpos, -⟩; simp only at hpos; linarith)]
    rw [hv]
  refine ⟨hstep, by linarith, ?_, ?_⟩
  · intro res h
    unfold greeks at h
    dsimp only at h
    rw [hstep] at h
    rcases hb : binomialOptionPricing E params.S params.K params.T params.r
        params.sigma params.n params.option_type params.exercise_type params.q
      with e | base <;> rw [hb] at h <;> dsimp only at h
    · simp at h
    · rcases hu : binomialOptionPricing E (params.S + 1/10000) params.K params.T
          params.r params.sigma params.n params.option_type params.exercise_type
          params.q with e | up <;> rw [hu] at h <;> dsimp only at h
      · simp at h
      · rw [hdown] at h
        simp at h
  · intro base up hb hu
    unfold greeks
    dsimp only
    rw [hstep, hb]
    dsimp only
    rw [hu]
    dsimp only
    rw [hdown]

/-- Concrete tiny-spot parameter record for the C10 witness:
`S = 1e-4`, otherwise `valParams`. -/
def tinyParams : Params := ⟨1/10000, 1, 1, 0, 1, 0, 1, "call", "european"⟩

/-- Witness for C10: `greeks` on `tinyParams` raises the S/K-positivity
`InvalidParameter`. -/
theorem greeks_tiny_spot_witness :
    greeks constEnv tinyParams none none =
      .error (.invalidParameter "S and K must be positive.") := by
  have hr2 : List.range 2 = [0, 1] := by decide
  exact (greeks_tiny_spot constEnv tinyParams none (by norm_num [tinyParams])
      (by norm_num [tinyParams])).2.2.2 0 0
    (by norm_num [tinyParams, binomialOptionPricing, validateInputs, upFactor,
      riskNeutralProb, rnProbFormula, payoff, inductLayers, stepLayer, constEnv, hr2,
      List.getD, Int.toNat_ofNat])
    (by norm_num [tinyParams, binomialOptionPricing, validateInputs, upFactor,
      riskNeutralProb, rnProbFormula, payoff, inductLayers, stepLayer, constEnv, hr2,
      List.getD, Int.toNat_ofNat])

end BinomialApp
